import Mathlib

set_option autoImplicit false

namespace Scrapey

/-! # Shallow embedding of the scrapey extraction pipeline

Source: src/index.ts (primary variant) and src/unnamed/part_000 (second
variant, identical in the parts the claims touch except for the category
ruleset, descriptions and sample responses). Strings are modelled as their
sequences of Unicode code points; the ECMAScript string operations used by
the source are reproduced on that model. An uncaught TypeError (indexing a
missing DOM element and then touching a property) is modelled with
`Except.error`. -/

def openBrace : Char := Char.ofNat 0x7B

def closeBrace : Char := Char.ofNat 0x7D

/-- Character class of the regex `[\u0000-\u001F\u007F-\u009F-\u200B]` that the
source applies with a global `replace` to every extracted text: the C0 range,
DEL plus the C1 range, a literal hyphen (inside a character class a dash that
follows a completed range is literal), and U+200B. -/
def isStrippedChar (c : Char) : Bool :=
  decide (c.toNat ≤ 0x1F) || (decide (0x7F ≤ c.toNat) && decide (c.toNat ≤ 0x9F))
    || c == '-' || decide (c.toNat = 0x200B)

/-- The text sanitizer of the source: global replacement of `isStrippedChar`
characters by the empty string. -/
def sanitize (s : String) : String := String.mk (s.data.filter (fun c => !isStrippedChar c))

/-- The character set that the specification sentence for the sanitizer names:
C0 controls, DEL and the C1 controls, and the zero width space U+200B. -/
def specControlOrZwsp (c : Char) : Bool :=
  decide (c.toNat ≤ 0x1F) || (decide (0x7F ≤ c.toNat) && decide (c.toNat ≤ 0x9F))
    || decide (c.toNat = 0x200B)

/-- Does `p` occur at the head of the first list? -/
def matchesAt : List Char → List Char → Bool
  | _, [] => true
  | [], _ :: _ => false
  | c :: cs, p :: ps => c == p && matchesAt cs ps

def hasSubAux : List Char → List Char → Bool
  | [], ps => ps.isEmpty
  | c :: cs, ps => matchesAt (c :: cs) ps || hasSubAux cs ps

/-- Model of the `includes` test on strings used throughout the source. -/
def hasSubstr (s pat : String) : Bool := hasSubAux s.data pat.data

/-- Model of `toLowerCase` (every input the source classifies is ASCII). -/
def jsToLower (s : String) : String := String.mk (s.data.map Char.toLower)

/-- The ECMAScript white space plus line terminator set: what the regex `\s`
matches and what `trim` removes. -/
def isJsWs (c : Char) : Bool :=
  decide (c.toNat = 9) || decide (c.toNat = 10) || decide (c.toNat = 0x0B)
    || decide (c.toNat = 0x0C) || decide (c.toNat = 13) || decide (c.toNat = 32)
    || decide (c.toNat = 0xA0) || decide (c.toNat = 0x1680)
    || (decide (0x2000 ≤ c.toNat) && decide (c.toNat ≤ 0x200A))
    || decide (c.toNat = 0x2028) || decide (c.toNat = 0x2029) || decide (c.toNat = 0x202F)
    || decide (c.toNat = 0x205F) || decide (c.toNat = 0x3000) || decide (c.toNat = 0xFEFF)

def trimChars (l : List Char) : List Char :=
  ((l.dropWhile isJsWs).reverse.dropWhile isJsWs).reverse

/-- Model of `trim`. -/
def jsTrim (s : String) : String := String.mk (trimChars s.data)

/-- Model of the global replacement of `\s` by the empty string. -/
def stripAllWs (s : String) : String := String.mk (s.data.filter (fun c => !isJsWs c))

def charIndexFrom : List Char → Char → Option Nat
  | [], _ => none
  | x :: xs, c =>
    if x == c then some 0
    else
      match charIndexFrom xs c with
      | some i => some (i + 1)
      | none => none

/-- Model of `indexOf` for a one character pattern: the index of the first
occurrence, or minus one. -/
def jsIndexOfChar (s : String) (c : Char) : Int :=
  match charIndexFrom s.data c with
  | some i => (i : Int)
  | none => -1

/-- Index normalization of `slice`: a negative index counts from the end,
clamped below by zero; a nonnegative index is clamped above by the length. -/
def normSliceIdx (len : Nat) (i : Int) : Nat :=
  if i < 0 then ((len : Int) + i).toNat else min i.toNat len

def jsSlice (s : String) (a b : Int) : String :=
  String.mk ((s.data.take (normSliceIdx s.length b)).drop (normSliceIdx s.length a))

/-- Index normalization of `substring`: negative indices clamp to zero, indices
above the length clamp to the length. -/
def normSubIdx (len : Nat) (i : Int) : Nat := min i.toNat len

def jsSubstring (s : String) (a b : Int) : String :=
  String.mk ((s.data.take (max (normSubIdx s.length a) (normSubIdx s.length b))).drop
    (min (normSubIdx s.length a) (normSubIdx s.length b)))

/-- `removeAt` from src/index.ts lines 15 to 17:
`s.substring(0, index) + s.substring(index + 1)`. -/
def removeAt (index : Int) (s : String) : String :=
  jsSubstring s 0 index ++ jsSubstring s (index + 1) ((s.length : Int))

/-- The `MethodCategory` enum of src/index.ts lines 29 to 38. -/
inductive MethodCategory where
  | Program | Token | Account | Transaction | Block | Epoch | Fees | Misc
deriving DecidableEq, Repr

/-- The string value carried by each member of the enum. -/
def MethodCategory.str : MethodCategory → String
  | .Program => "Program"
  | .Token => "Token"
  | .Account => "Account"
  | .Transaction => "Transaction"
  | .Block => "Block"
  | .Epoch => "Epoch"
  | .Fees => "Fee"
  | .Misc => "Miscellaneous"

/-- `getCategory` from src/index.ts lines 40 to 63. -/
def getCategory (methodName : String) : MethodCategory :=
  if hasSubstr (jsToLower methodName) "block" then .Block
  else if hasSubstr (jsToLower methodName) "epoch" then .Epoch
  else if hasSubstr (jsToLower methodName) "fee" then .Fees
  else if hasSubstr (jsToLower methodName) "transaction" then .Transaction
  else if hasSubstr (jsToLower methodName) "program" then .Program
  else if hasSubstr (jsToLower methodName) "token" then .Token
  else if hasSubstr (jsToLower methodName) "account" then .Account
  else .Misc

/-- The `MethodCategory` enum of the second variant, src/unnamed/part_000
lines 29 to 40. -/
inductive MethodCategoryV where
  | Accounts | Transaction | Block | Inflation | Slot | Stake | Epoch | Fee | Token
  | Miscellaneous
deriving DecidableEq, Repr

/-- `getCategory` from src/unnamed/part_000 lines 42 to 72 (it lower cases the
name once up front; the observable function is the same shape). -/
def getCategoryV (m : String) : MethodCategoryV :=
  if hasSubstr (jsToLower m) "block" then .Block
  else if hasSubstr (jsToLower m) "slot" then .Slot
  else if hasSubstr (jsToLower m) "epoch" then .Epoch
  else if hasSubstr (jsToLower m) "stake" then .Stake
  else if hasSubstr (jsToLower m) "inflation" then .Inflation
  else if hasSubstr (jsToLower m) "fee" then .Fee
  else if hasSubstr (jsToLower m) "token" then .Token
  else if hasSubstr (jsToLower m) "transaction" then .Transaction
  else if hasSubstr (jsToLower m) "account" then .Accounts
  else .Miscellaneous

/-- The ordered keyword ruleset read off the conditional chain of
`getCategory` in src/index.ts. -/
def categoryRules : List (String × MethodCategory) :=
  [("block", .Block), ("epoch", .Epoch), ("fee", .Fees), ("transaction", .Transaction),
   ("program", .Program), ("token", .Token), ("account", .Account)]

/-- The ordered keyword ruleset of the second variant. -/
def categoryRulesV : List (String × MethodCategoryV) :=
  [("block", .Block), ("slot", .Slot), ("epoch", .Epoch), ("stake", .Stake),
   ("inflation", .Inflation), ("fee", .Fee), ("token", .Token), ("transaction", .Transaction),
   ("account", .Accounts)]

/-- First match wins classification over an ordered ruleset, with a fallback
category when no keyword occurs in the lowered name. This is the shape the
specification describes; the claims compare `getCategory` against it. -/
def classifyFirstMatch {α : Type} (fallback : α) : List (String × α) → String → α
  | [], _ => fallback
  | (kw, cat) :: rest, lowered =>
    if hasSubstr lowered kw then cat else classifyFirstMatch fallback rest lowered

/-! ## JSON values and a model of the JSON.parse grammar

Numbers are kept as their raw lexemes: no claim inspects a numeric value, only
parse success and the object structure matter. Duplicate object keys keep the
later value, as JSON.parse does. -/

inductive Json where
  | null : Json
  | bool : Bool → Json
  | num : String → Json
  | str : String → Json
  | arr : List Json → Json
  | obj : List (String × Json) → Json
deriving Repr

def isJsonWsChar (c : Char) : Bool :=
  decide (c.toNat = 32) || decide (c.toNat = 9) || decide (c.toNat = 10)
    || decide (c.toNat = 13)

def hexDigitVal (c : Char) : Option Nat :=
  if c.isDigit then some (c.toNat - 48)
  else if decide ('a' ≤ c) && decide (c ≤ 'f') then some (c.toNat - 87)
  else if decide ('A' ≤ c) && decide (c ≤ 'F') then some (c.toNat - 55)
  else none

/-- The two character escape table of the JSON grammar, written as pairs of
the escape letter and the character it denotes. -/
def escapePairs : List (Char × Char) :=
  [('"', '"'), ('\\', '\\'), ('/', '/'), ('b', Char.ofNat 8), ('f', Char.ofNat 12),
   ('n', Char.ofNat 10), ('r', Char.ofNat 13), ('t', Char.ofNat 9)]

def escapeChar (c : Char) : Option Char :=
  (escapePairs.find? (fun pr => pr.1 == c)).map Prod.snd

/-- Body of a JSON string literal, after the opening quote: returns the decoded
content and the input after the closing quote. Unescaped controls and unknown
escapes are rejected, as JSON.parse rejects them. -/
def parseStringBody : List Char → Option (List Char × List Char)
  | [] => none
  | '"' :: rest => some ([], rest)
  | '\\' :: 'u' :: h1 :: h2 :: h3 :: h4 :: rest =>
    (match hexDigitVal h1, hexDigitVal h2, hexDigitVal h3, hexDigitVal h4 with
     | some a, some b, some c, some d =>
       match parseStringBody rest with
       | some (cs, r) => some (Char.ofNat (((a * 16 + b) * 16 + c) * 16 + d) :: cs, r)
       | none => none
     | _, _, _, _ => none)
  | '\\' :: e :: rest =>
    (match escapeChar e with
     | some ch =>
       match parseStringBody rest with
       | some (cs, r) => some (ch :: cs, r)
       | none => none
     | none => none)
  | c :: rest =>
    if decide (c.toNat < 0x20) then none
    else
      match parseStringBody rest with
      | some (cs, r) => some (c :: cs, r)
      | none => none

/-- Integer part of a JSON number: a single zero, or a nonzero digit followed
by digits. -/
def parseIntDigits : List Char → Option (List Char × List Char)
  | [] => none
  | c :: rest =>
    if c == '0' then some (['0'], rest)
    else if decide ('1' ≤ c) && decide (c ≤ '9') then
      some (c :: rest.takeWhile Char.isDigit, rest.dropWhile Char.isDigit)
    else none

/-- Optional fraction part: a dot must be followed by at least one digit to be
consumed. -/
def parseFrac : List Char → List Char × List Char
  | '.' :: rest =>
    (match rest.takeWhile Char.isDigit with
     | [] => ([], '.' :: rest)
     | ds => ('.' :: ds, rest.dropWhile Char.isDigit))
  | l => ([], l)

/-- Optional exponent part: an e or E with an optional sign must be followed by
at least one digit to be consumed. -/
def parseExp : List Char → List Char × List Char
  | [] => ([], [])
  | c :: rest =>
    if c == 'e' || c == 'E' then
      match rest with
      | [] => ([], [c])
      | s :: rest2 =>
        if s == '+' || s == '-' then
          match rest2.takeWhile Char.isDigit with
          | [] => ([], c :: rest)
          | ds => (c :: s :: ds, rest2.dropWhile Char.isDigit)
        else
          match rest.takeWhile Char.isDigit with
          | [] => ([], c :: rest)
          | ds => (c :: ds, rest.dropWhile Char.isDigit)
    else ([], c :: rest)

def parseNumberLex (l : List Char) : Option (List Char × List Char) :=
  match l with
  | '-' :: rest =>
    (match parseIntDigits rest with
     | none => none
     | some (ip, r1) =>
       let fr := parseFrac r1
       let ex := parseExp fr.2
       some ('-' :: (ip ++ fr.1 ++ ex.1), ex.2))
  | _ =>
    match parseIntDigits l with
    | none => none
    | some (ip, r1) =>
      let fr := parseFrac r1
      let ex := parseExp fr.2
      some (ip ++ fr.1 ++ ex.1, ex.2)

mutual

/-- One JSON value, fuel indexed. Every recursive call strictly decreases the
fuel and consumes input, so fuel twice the input length is always enough. -/
def parseValue : Nat → List Char → Option (Json × List Char)
  | 0, _ => none
  | fuel + 1, l =>
    match l.dropWhile isJsonWsChar with
    | [] => none
    | c :: rest =>
      if c == openBrace then
        match rest.dropWhile isJsonWsChar with
        | [] => none
        | c2 :: r2 =>
          if c2 == closeBrace then some (Json.obj [], r2)
          else parseMembers fuel rest []
      else if c == '[' then
        match rest.dropWhile isJsonWsChar with
        | [] => none
        | c2 :: r2 =>
          if c2 == ']' then some (Json.arr [], r2)
          else parseElems fuel rest []
      else if c == '"' then
        match parseStringBody rest with
        | some (cs, r) => some (Json.str (String.mk cs), r)
        | none => none
      else if c == 't' then
        match rest with
        | 'r' :: 'u' :: 'e' :: r => some (Json.bool true, r)
        | _ => none
      else if c == 'f' then
        match rest with
        | 'a' :: 'l' :: 's' :: 'e' :: r => some (Json.bool false, r)
        | _ => none
      else if c == 'n' then
        match rest with
        | 'u' :: 'l' :: 'l' :: r => some (Json.null, r)
        | _ => none
      else
        match parseNumberLex (c :: rest) with
        | some (ds, r) => some (Json.num (String.mk ds), r)
        | none => none

/-- Members of a JSON object, after the opening brace of a nonempty object. -/
def parseMembers : Nat → List Char → List (String × Json) → Option (Json × List Char)
  | 0, _, _ => none
  | fuel + 1, l, acc =>
    match l.dropWhile isJsonWsChar with
    | [] => none
    | c :: rest =>
      if c == '"' then
        match parseStringBody rest with
        | none => none
        | some (key, r1) =>
          match r1.dropWhile isJsonWsChar with
          | ':' :: r2 =>
            (match parseValue fuel r2 with
             | none => none
             | some (v, r3) =>
               match r3.dropWhile isJsonWsChar with
               | [] => none
               | c4 :: r4 =>
                 if c4 == ',' then parseMembers fuel r4 (acc ++ [(String.mk key, v)])
                 else if c4 == closeBrace then some (Json.obj (acc ++ [(String.mk key, v)]), r4)
                 else none)
          | _ => none
      else none

/-- Elements of a JSON array, after the opening bracket of a nonempty array. -/
def parseElems : Nat → List Char → List Json → Option (Json × List Char)
  | 0, _, _ => none
  | fuel + 1, l, acc =>
    match parseValue fuel l with
    | none => none
    | some (v, r1) =>
      match r1.dropWhile isJsonWsChar with
      | ',' :: r2 => parseElems fuel r2 (acc ++ [v])
      | ']' :: r2 => some (Json.arr (acc ++ [v]), r2)
      | _ => none

end

/-- Model of `JSON.parse`: one value, then only white space may remain. -/
def jsonParse (s : String) : Option Json :=
  match parseValue (2 * s.length + 2) s.data with
  | some (v, rest) => if (rest.dropWhile isJsonWsChar).isEmpty then some v else none
  | none => none

/-- Later duplicate keys win, as in objects built by JSON.parse. -/
def lookupLastField : List (String × Json) → String → Option Json
  | [], _ => none
  | (k, v) :: rest, key =>
    match lookupLastField rest key with
    | some v2 => some v2
    | none => if k == key then some v else none

/-- Property access on a parse result: absent on anything but an object that
carries the key. -/
def Json.getField : Json → String → Option Json
  | Json.obj members, key => lookupLastField members key
  | _, _ => none

/-! ## The document model

Each structure records exactly what the pipeline reads from a method subtree.
An `Option` field is `none` when the corresponding element query returns no
element, in which case the source indexes `undefined` and touching a property
raises a TypeError. The `textContent` of an element that does exist is always
a string (possibly empty), which is how the DOM behaves. -/

/-- One `Field_MIDZ` element inside an object typed parameter. -/
structure FieldSection where
  /-- The text of the first `ParameterName_c9Z4` descendant, if one exists. -/
  paramNameText : Option String
  /-- The text of the first `code` descendant, if one exists. -/
  codeText : Option String
  /-- The texts of the `FlagItem_qZK_` descendants, in document order. -/
  flagTexts : List String
deriving Repr

/-- One `Parameter_p8dk` element. -/
structure ParamSection where
  /-- The text of `code` under `ParameterHeader_UUsJ`; `none` when either
  element is missing (both cases raise in the source). -/
  headerCodeText : Option String
  /-- The `Field_MIDZ` descendants. -/
  fieldSections : List FieldSection
  /-- The texts of the `FlagItem_qZK_` descendants at parameter level. -/
  flagTexts : List String
deriving Repr

/-- One `DocBlock_boPv` method subtree. -/
structure MethodSection where
  /-- The texts of the `h2` descendants. -/
  h2Texts : List String
  /-- The text of the first `theme-admonition-warning` descendant, if any. -/
  warningText : Option String
  /-- `some` when a `CodeParams_B82f` element exists, carrying its
  `Parameter_p8dk` descendants. -/
  codeParams : Option (List ParamSection)
  /-- `some` when a `CodeSnippets_vVvq` element exists, carrying the texts of
  its `codeBlockLines_e6Vv` descendants. -/
  codeSnippets : Option (List String)
deriving Repr

/-! ## The records the pipeline builds -/

structure FieldSpec where
  name : String
  type : String
  required : Bool
deriving DecidableEq, Repr

structure MethodParam where
  type : String
  required : Bool
  fields : List FieldSpec
deriving DecidableEq, Repr

structure MethodRecord where
  name : String
  params : List MethodParam
  /-- `sampleBody.params`: the `params` property of the parsed sample. -/
  sampleParams : Option Json
  category : MethodCategory
  deprecated : Bool
deriving Repr

/-- The TypeErrors the pipeline can raise by indexing a missing element. -/
inductive PipeError where
  | noHeading
  | noParamsContainer
  | noParamHeader
  | noFlagItem
  | noCodeSnippets
  | noCodeBlockLines
deriving DecidableEq, Repr

/-! ## The extraction pipeline, src/index.ts lines 77 to 198 -/

/-- The required flag read: `flags.length > 0 && flags[0].textContent === "required"`
(src/index.ts lines 123 to 125). -/
def flagRequired : List String → Bool
  | [] => false
  | flag :: _ => flag == "required"

/-- The field loop of src/index.ts lines 116 to 137. The try/catch wraps the
whole loop, so a TypeError from a missing `ParameterName_c9Z4` or `code`
element ends the loop and the fields collected so far are kept, while a field
whose name or type text is falsy is skipped by the `continue` branch. -/
def fieldLoop : List FieldSection → List FieldSpec → List FieldSpec
  | [], acc => acc
  | fsec :: rest, acc =>
    match fsec.paramNameText, fsec.codeText with
    | some nameText, some typeText =>
      let name := sanitize nameText
      let required := flagRequired fsec.flagTexts
      if name == "" || typeText == "" then fieldLoop rest acc
      else fieldLoop rest (acc ++ [⟨name, typeText, required⟩])
    | _, _ => acc

/-- The body of the parameter loop, src/index.ts lines 100 to 157.
`Except.error` models an uncaught TypeError, `Except.ok none` models the
`continue` taken when the type text is falsy, and `Except.ok (some p)` models
`params.push`. The required flag is read after the field block and before the
type check, exactly as in the source, so a missing `FlagItem_qZK_` element
raises even when the type text is empty. -/
def processParam (param : ParamSection) : Except PipeError (Option MethodParam) :=
  match param.headerCodeText with
  | none => .error .noParamHeader
  | some rawType =>
    let type := sanitize (jsTrim rawType)
    let fields := if type == "object" then fieldLoop param.fieldSections [] else []
    match param.flagTexts with
    | [] => .error .noFlagItem
    | flag :: _ =>
      let required := flag == "required"
      if type == "" then .ok none
      else .ok (some ⟨type, required, fields⟩)

def processParams : List ParamSection → Except PipeError (List MethodParam)
  | [] => .ok []
  | p :: rest =>
    match processParam p with
    | .error e => .error e
    | .ok none => processParams rest
    | .ok (some mp) =>
      match processParams rest with
      | .error e => .error e
      | .ok l => .ok (mp :: l)

/-- Lines 168 to 172 of src/index.ts: find the first opening brace, slice from
there to just before the final character, trim, and remove every white space
character. -/
def recoverCandidate (sampleRequest : String) : String :=
  stripAllWs (jsTrim (jsSlice sampleRequest (jsIndexOfChar sampleRequest openBrace) (-1)))

/-- Lines 174 to 176 of src/index.ts: the hand patch for the
simulateTransaction sample. -/
def applySimulateFix (jsonString : String) : String :=
  if hasSubstr jsonString "simulateTransaction" then
    removeAt ((jsonString.length : Int) - 4) jsonString
  else jsonString

inductive StepOutcome where
  | record : MethodRecord → StepOutcome
  | skip : StepOutcome
deriving Repr

/-- The body of the method loop, src/index.ts lines 77 to 198. `skip` stands
for the `continue` paths, each of which also logs a diagnostic; `error` stands
for an uncaught TypeError. The `if (!paramsSection)` guard of the source is
not represented because it can never fire: `getElementsByClassName` returns a
collection object, which is always truthy, so the guard is dead code, while a
missing `CodeParams_B82f` element raises before the guard is reached. -/
def processSection (sec : MethodSection) : Except PipeError StepOutcome :=
  match sec.h2Texts with
  | [] => .error .noHeading
  | h2Text :: _ =>
    let methodName := sanitize h2Text
    let category := getCategory methodName
    let deprecated :=
      match sec.warningText with
      | some w => hasSubstr (jsToLower w) "deprecated"
      | none => false
    match sec.codeParams with
    | none => .error .noParamsContainer
    | some paramsSection =>
      match processParams paramsSection with
      | .error e => .error e
      | .ok params =>
        match sec.codeSnippets with
        | none => .error .noCodeSnippets
        | some [] => .error .noCodeBlockLines
        | some (rawSample :: _) =>
          let sampleRequest := sanitize rawSample
          if sampleRequest == "" then .ok .skip
          else
            let jsonString := applySimulateFix (recoverCandidate sampleRequest)
            match jsonParse jsonString with
            | none => .ok .skip
            | some j =>
              .ok (.record ⟨methodName, params, j.getField "params", category, deprecated⟩)

/-! ## Aggregation, src/index.ts lines 73 to 75 and 190 to 195 -/

structure AggState where
  methods : List MethodRecord
  categoryMap : List (MethodCategory × List MethodRecord)
deriving Repr

/-- JS object update: push onto an existing bucket in place, or append a new
key at the end, which is the insertion order of object keys. -/
def addToBucket : List (MethodCategory × List MethodRecord) → MethodCategory → MethodRecord →
    List (MethodCategory × List MethodRecord)
  | [], c, r => [(c, [r])]
  | (c0, b0) :: rest, c, r =>
    if c0 = c then (c0, b0 ++ [r]) :: rest
    else (c0, b0) :: addToBucket rest c r

/-- Lines 190 to 195 of src/index.ts: the record goes into its category bucket
and onto the flat list. -/
def pushRecord (st : AggState) (r : MethodRecord) : AggState :=
  ⟨st.methods ++ [r], addToBucket st.categoryMap r.category r⟩

/-- The method loop of `main`: subtrees are processed in order, a skip leaves
the state untouched, and an uncaught TypeError aborts the whole run (it
propagates to `runMain`, which exits with a nonzero code). -/
def runPipeline : List MethodSection → AggState → Except PipeError AggState
  | [], st => .ok st
  | sec :: rest, st =>
    match processSection sec with
    | .error e => .error e
    | .ok .skip => runPipeline rest st
    | .ok (.record r) => runPipeline rest (pushRecord st r)

def lookupBucket : List (MethodCategory × List MethodRecord) → MethodCategory →
    Option (List MethodRecord)
  | [], _ => none
  | (c0, b0) :: rest, c => if c0 = c then some b0 else lookupBucket rest c

def bucketLenSum (m : List (MethodCategory × List MethodRecord)) : Nat :=
  (m.map (fun kv => kv.2.length)).sum

/-! ## Spec side characterizations used by the claims -/

/-- A field section that has both the name element and the code element, so
the field body runs without raising. -/
def fieldStructOk (fsec : FieldSection) : Bool :=
  fsec.paramNameText.isSome && fsec.codeText.isSome

/-- The spec of one well formed field: `none` when the name or type text is
falsy, otherwise the extracted field. -/
def mkFieldSpec (fsec : FieldSection) : Option FieldSpec :=
  match fsec.paramNameText, fsec.codeText with
  | some nameText, some typeText =>
    if sanitize nameText == "" || typeText == "" then none
    else some ⟨sanitize nameText, typeText, flagRequired fsec.flagTexts⟩
  | _, _ => none

/-- The invariant the aggregation maintains over the run: every bucket is the
filter of the flat list by its key, bucket keys are pairwise distinct, and
every record category owns a bucket. -/
def Inv (st : AggState) : Prop :=
  (∀ c b, (c, b) ∈ st.categoryMap → b = st.methods.filter (fun r => decide (r.category = c)))
  ∧ (st.categoryMap.map Prod.fst).Nodup
  ∧ ∀ r, r ∈ st.methods → r.category ∈ st.categoryMap.map Prod.fst

/-- A one section demonstration run: a method with one required string
parameter and a sample request with framing text around the JSON body. -/
def c2DemoSection : MethodSection :=
  ⟨["getBalance"], none, some [⟨some "string", [], ["required"]⟩],
    some ["curl \x7b\"params\":[\"abc\"]\x7dX"]⟩

def c2DemoRecord : MethodRecord :=
  ⟨"getBalance", [⟨"string", true, []⟩], some (Json.arr [Json.str "abc"]),
    MethodCategory.Misc, false⟩

def c2DemoState : AggState := ⟨[c2DemoRecord], [(MethodCategory.Misc, [c2DemoRecord])]⟩

/-! ## Helper lemmas -/

theorem charIndexFrom_lt_length {c : Char} :
    ∀ {l : List Char} {i : Nat}, charIndexFrom l c = some i → i < l.length := by
  intro l
  induction l with
  | nil => intro i h; simp [charIndexFrom] at h
  | cons x xs ih =>
    intro i h
    unfold charIndexFrom at h
    by_cases hx : x == c
    · simp [hx] at h
      simp [← h, List.length_cons]
    · simp [hx] at h
      cases hj : charIndexFrom xs c with
      | none => rw [hj] at h; simp at h
      | some j =>
        rw [hj] at h
        simp at h
        have := ih hj
        simp [List.length_cons]
        omega

theorem matchesAt_length : ∀ {p l : List Char}, matchesAt l p = true → p.length ≤ l.length := by
  intro p
  induction p with
  | nil => intro l _; simp
  | cons q qs ih =>
    intro l h
    cases l with
    | nil => simp [matchesAt] at h
    | cons x xs =>
      rw [matchesAt, Bool.and_eq_true] at h
      have := ih h.2
      simp [List.length_cons]
      omega

theorem hasSubAux_length : ∀ {l p : List Char}, hasSubAux l p = true → p.length ≤ l.length := by
  intro l
  induction l with
  | nil =>
    intro p h
    rw [hasSubAux] at h
    simp [List.isEmpty_iff] at h
    simp [h]
  | cons x xs ih =>
    intro p h
    rw [hasSubAux, Bool.or_eq_true] at h
    cases h with
    | inl h => exact matchesAt_length h
    | inr h =>
      have := ih h
      simp [List.length_cons]
      omega

/-! ## Claim theorems -/

/-- C3: the classifier lower cases the name and returns the category attached
to the first keyword of a fixed ordered ruleset that occurs in the lowered
name, with `Miscellaneous` as the fallback; the token rule precedes the
account rule, so `getTokenAccountsByOwner` classifies as Token. Both pipeline
variants are covered. -/
theorem C3_classifier_first_match (name : String) :
    getCategory name = classifyFirstMatch MethodCategory.Misc categoryRules (jsToLower name)
    ∧ getCategoryV name
        = classifyFirstMatch MethodCategoryV.Miscellaneous categoryRulesV (jsToLower name)
    ∧ getCategory "getTokenAccountsByOwner" = MethodCategory.Token
    ∧ getCategoryV "getTokenAccountsByOwner" = MethodCategoryV.Token
    ∧ categoryRules.findIdx (fun rule => rule.1 == "token")
        < categoryRules.findIdx (fun rule => rule.1 == "account")
    ∧ categoryRulesV.findIdx (fun rule => rule.1 == "token")
        < categoryRulesV.findIdx (fun rule => rule.1 == "account") :=
  ⟨rfl, rfl, by decide, by decide, by decide, by decide⟩

/-- C6, evaluated at the failing input: the sanitizer also deletes the hyphen
U+002D, a character that is neither a C0 or C1 control nor the zero width
space, because the regex character class contains a literal dash between two
ranges; the claimed survive-exactly-outside-the-set contract is violated. -/
theorem C6_sanitizer_strips_hyphen :
    sanitize "a-b" = "ab"
    ∧ specControlOrZwsp '-' = false
    ∧ isStrippedChar '-' = true := by
  refine ⟨?_, by decide, by decide⟩
  decide

/-- C9: the sanitizer is idempotent: it filters by a fixed character
predicate, so sanitizing already sanitized text changes nothing. -/
theorem C9_sanitize_idempotent (s : String) : sanitize (sanitize s) = sanitize s := by
  cases s with
  | mk data => simp [sanitize, List.filter_filter]

theorem mk_append (a b : List Char) : String.mk a ++ String.mk b = String.mk (a ++ b) := rfl

theorem length_data (s : String) : s.length = s.data.length := rfl

/-- With the first brace at index `i`, the slice from `indexOf` to `-1` is
the drop to `i` with the last character removed. -/
theorem jsSlice_from_brace (s : String) (i : Nat)
    (hi : charIndexFrom s.data openBrace = some i) :
    jsSlice s (jsIndexOfChar s openBrace) (-1) = String.mk ((s.data.drop i).dropLast) := by
  have hlt : i < s.data.length := charIndexFrom_lt_length hi
  have hlen : s.length = s.data.length := rfl
  have hA : normSliceIdx s.length ((i : Nat) : Int) = i := by
    unfold normSliceIdx
    rw [if_neg (by omega)]
    rw [hlen]
    omega
  have hB : normSliceIdx s.length (-1) = s.data.length - 1 := by
    unfold normSliceIdx
    rw [if_pos (by omega)]
    rw [hlen]
    omega
  unfold jsSlice jsIndexOfChar
  rw [hi, hA, hB]
  congr 1
  rw [List.drop_take, List.dropLast_eq_take, List.length_drop]
  congr 1
  omega

/-- C4: with a brace present, the candidate is obtained by slicing from the
first brace up to but excluding the final character, trimming and stripping
all white space; and on a candidate that mentions simulateTransaction, the
correction removes exactly the one character at offset length minus four. -/
theorem C4_sample_candidate_and_simulate_fix (s c : String) (i : Nat)
    (hi : charIndexFrom s.data openBrace = some i)
    (hc : hasSubstr c "simulateTransaction" = true) :
    recoverCandidate s = stripAllWs (jsTrim (String.mk ((s.data.drop i).dropLast)))
    ∧ applySimulateFix c
        = String.mk ((c.data.take (c.data.length - 4)) ++ (c.data.drop (c.data.length - 3)))
    ∧ 19 ≤ c.data.length
    ∧ (applySimulateFix c).length = c.length - 1 := by
  have h19 : 19 ≤ c.data.length := by
    have h := hasSubAux_length (l := c.data) (p := "simulateTransaction".data) hc
    simpa using h
  have hlen : c.length = c.data.length := rfl
  have part1 : recoverCandidate s = stripAllWs (jsTrim (String.mk ((s.data.drop i).dropLast))) := by
    unfold recoverCandidate
    rw [jsSlice_from_brace s i hi]
  have e0 : normSubIdx c.length 0 = 0 := by
    unfold normSubIdx
    omega
  have e1 : normSubIdx c.length ((c.length : Int) - 4) = c.data.length - 4 := by
    unfold normSubIdx
    rw [hlen]
    omega
  have e2 : normSubIdx c.length ((c.length : Int) - 4 + 1) = c.data.length - 3 := by
    unfold normSubIdx
    rw [hlen]
    omega
  have e3 : normSubIdx c.length ((c.length : Int)) = c.data.length := by
    unfold normSubIdx
    rw [hlen]
    omega
  have part2 : applySimulateFix c
      = String.mk ((c.data.take (c.data.length - 4)) ++ (c.data.drop (c.data.length - 3))) := by
    unfold applySimulateFix
    rw [if_pos hc]
    unfold removeAt jsSubstring
    rw [e0, e1, e2, e3, mk_append]
    congr 1
    have hmax1 : max 0 (c.data.length - 4) = c.data.length - 4 := by omega
    have hmin1 : min 0 (c.data.length - 4) = 0 := by omega
    have hmax2 : max (c.data.length - 3) c.data.length = c.data.length := by omega
    have hmin2 : min (c.data.length - 3) c.data.length = c.data.length - 3 := by omega
    rw [hmax1, hmin1, hmax2, hmin2, List.drop_zero]
    congr 1
    rw [List.take_length]
  have part4 : (applySimulateFix c).length = c.length - 1 := by
    rw [part2, length_data, hlen]
    simp [String.mk, List.length_append, List.length_take, List.length_drop]
    omega
  exact ⟨part1, part2, h19, part4⟩

/-- C4 witness: the theorem applied at a concrete sample text and a concrete
simulateTransaction candidate. -/
theorem C4_witness :
    charIndexFrom "ab\x7b12\x7dx".data openBrace = some 2
    ∧ hasSubstr "\x7bsimulateTransaction\x7d123" "simulateTransaction" = true
    ∧ (recoverCandidate "ab\x7b12\x7dx"
        = stripAllWs (jsTrim (String.mk (("ab\x7b12\x7dx".data.drop 2).dropLast)))
      ∧ applySimulateFix "\x7bsimulateTransaction\x7d123"
          = String.mk (("\x7bsimulateTransaction\x7d123".data.take
              ("\x7bsimulateTransaction\x7d123".data.length - 4))
            ++ ("\x7bsimulateTransaction\x7d123".data.drop
              ("\x7bsimulateTransaction\x7d123".data.length - 3)))
      ∧ 19 ≤ "\x7bsimulateTransaction\x7d123".data.length
      ∧ (applySimulateFix "\x7bsimulateTransaction\x7d123").length
          = "\x7bsimulateTransaction\x7d123".length - 1) :=
  ⟨by decide, by decide,
    C4_sample_candidate_and_simulate_fix "ab\x7b12\x7dx" "\x7bsimulateTransaction\x7d123" 2
      (by decide) (by decide)⟩

/-- Without a brace, `indexOf` yields minus one and the slice from minus one
to minus one is empty, so the candidate is the empty string. -/
theorem recoverCandidate_no_brace (s : String)
    (h : charIndexFrom s.data openBrace = none) :
    recoverCandidate s = "" := by
  unfold recoverCandidate jsIndexOfChar
  rw [h]
  unfold jsSlice
  have hnil : (s.data.take (normSliceIdx s.length (-1))).drop (normSliceIdx s.length (-1)) = [] := by
    apply List.drop_eq_nil_of_le
    rw [List.length_take]
    omega
  rw [hnil]
  rfl

theorem jsonParse_empty : jsonParse "" = none := rfl

/-- A skipped section leaves the aggregation state untouched and the loop
moves on to the remaining sections. -/
theorem runPipeline_skip (sec : MethodSection) (rest : List MethodSection) (st : AggState)
    (h : processSection sec = .ok .skip) :
    runPipeline (sec :: rest) st = runPipeline rest st := by
  conv_lhs => rw [runPipeline]
  rw [h]

/-- A section that survives every structural check but whose candidate fails
to parse takes the catch branch: the outcome is a skip. -/
theorem processSection_skip_of_parse_fail
    (nm : String) (hs : List String) (w : Option String) (ps : List ParamSection)
    (raw : String) (rs : List String) (params : List MethodParam)
    (hparams : processParams ps = .ok params)
    (hne : (sanitize raw == "") = false)
    (hfail : jsonParse (applySimulateFix (recoverCandidate (sanitize raw))) = none) :
    processSection ⟨nm :: hs, w, some ps, some (raw :: rs)⟩ = .ok .skip := by
  unfold processSection
  simp only [hparams]
  rw [if_neg (by simp [hne])]
  rw [hfail]

/-- C5: a method subtree whose recovered candidate fails to parse as JSON is
abandoned whole: the step produces no record, the flat list and the category
index are exactly what they were, and the run continues with the remaining
subtrees. -/
theorem C5_parse_failure_abandons_method
    (nm : String) (hs : List String) (w : Option String) (ps : List ParamSection)
    (raw : String) (rs : List String) (params : List MethodParam)
    (rest : List MethodSection) (st : AggState)
    (hparams : processParams ps = .ok params)
    (hne : (sanitize raw == "") = false)
    (hfail : jsonParse (applySimulateFix (recoverCandidate (sanitize raw))) = none) :
    processSection ⟨nm :: hs, w, some ps, some (raw :: rs)⟩ = .ok .skip
    ∧ runPipeline (⟨nm :: hs, w, some ps, some (raw :: rs)⟩ :: rest) st = runPipeline rest st := by
  have hsec := processSection_skip_of_parse_fail nm hs w ps raw rs params hparams hne hfail
  exact ⟨hsec, runPipeline_skip _ rest st hsec⟩

/-- C5 witness: a concrete section whose candidate has a brace but is not
JSON; the state is an arbitrary concrete one to show it is preserved. -/
theorem C5_witness :
    processParams [] = .ok []
    ∧ (sanitize "x\x7boops" == "") = false
    ∧ jsonParse (applySimulateFix (recoverCandidate (sanitize "x\x7boops"))) = none
    ∧ (processSection ⟨["getFoo"], none, some [], some ["x\x7boops"]⟩ = .ok .skip
      ∧ runPipeline [⟨["getFoo"], none, some [], some ["x\x7boops"]⟩] ⟨[], []⟩
          = runPipeline [] ⟨[], []⟩) :=
  ⟨rfl, by decide, rfl,
    C5_parse_failure_abandons_method "getFoo" [] none [] "x\x7boops" [] [] [] ⟨[], []⟩
      rfl (by decide) rfl⟩

/-- C10: when the sanitized sample text contains no opening brace, the slice
produces the empty candidate, the empty string fails JSON parsing, and the
method is skipped through the normal abandon path while the run continues. -/
theorem C10_no_brace_empty_candidate_skip
    (nm : String) (hs : List String) (w : Option String) (ps : List ParamSection)
    (raw : String) (rs : List String) (params : List MethodParam)
    (rest : List MethodSection) (st : AggState)
    (hparams : processParams ps = .ok params)
    (hne : (sanitize raw == "") = false)
    (hbrace : charIndexFrom (sanitize raw).data openBrace = none) :
    recoverCandidate (sanitize raw) = ""
    ∧ jsonParse "" = none
    ∧ processSection ⟨nm :: hs, w, some ps, some (raw :: rs)⟩ = .ok .skip
    ∧ runPipeline (⟨nm :: hs, w, some ps, some (raw :: rs)⟩ :: rest) st = runPipeline rest st := by
  have hcand : recoverCandidate (sanitize raw) = "" := recoverCandidate_no_brace _ hbrace
  have hfail : jsonParse (applySimulateFix (recoverCandidate (sanitize raw))) = none := by
    rw [hcand]
    rfl
  have hsec := processSection_skip_of_parse_fail nm hs w ps raw rs params hparams hne hfail
  exact ⟨hcand, rfl, hsec, runPipeline_skip _ rest st hsec⟩

/-- C10 witness: a concrete sample text without a brace. -/
theorem C10_witness :
    processParams [] = .ok []
    ∧ (sanitize "hello" == "") = false
    ∧ charIndexFrom (sanitize "hello").data openBrace = none
    ∧ (recoverCandidate (sanitize "hello") = ""
      ∧ jsonParse "" = none
      ∧ processSection ⟨["getBar"], none, some [], some ["hello"]⟩ = .ok .skip
      ∧ runPipeline [⟨["getBar"], none, some [], some ["hello"]⟩] ⟨[], []⟩
          = runPipeline [] ⟨[], []⟩) :=
  ⟨rfl, by decide, by decide,
    C10_no_brace_empty_candidate_skip "getBar" [] none [] "hello" [] [] [] ⟨[], []⟩
      rfl (by decide) (by decide)⟩

/-- C1 counterexample: precondition violations do raise to the top level. A
subtree with no heading element, and a subtree with no parameter section
container, each abort the whole run with a TypeError instead of being skipped;
no diagnostic and no continuation happen. -/
theorem C1_counterexample :
    runPipeline [⟨[], none, some [], some ["x"]⟩] ⟨[], []⟩ = .error .noHeading
    ∧ runPipeline [⟨["getFoo"], none, none, some ["x"]⟩] ⟨[], []⟩
        = .error .noParamsContainer :=
  ⟨rfl, rfl⟩

/-- C1 as amended: a failed sample recovery step (empty sample text, or a
candidate that fails JSON parsing) produces a skip and the run continues with
the next subtree; but a subtree with no heading element, or with no parameter
section container, raises a TypeError that stops the whole run. -/
theorem C1_amended_precondition_failures
    (w1 : Option String) (cp1 : Option (List ParamSection)) (cs1 : Option (List String))
    (nm3 : String) (t3 : List String) (w3 : Option String) (cs3 : Option (List String))
    (nm : String) (hs : List String) (w : Option String) (ps : List ParamSection)
    (raw rawEmpty : String) (rs rs4 : List String) (params : List MethodParam)
    (rest : List MethodSection) (st : AggState)
    (hparams : processParams ps = .ok params)
    (hne : (sanitize raw == "") = false)
    (hfail : jsonParse (applySimulateFix (recoverCandidate (sanitize raw))) = none)
    (hempty : (sanitize rawEmpty == "") = true) :
    runPipeline (⟨[], w1, cp1, cs1⟩ :: rest) st = .error .noHeading
    ∧ runPipeline (⟨nm3 :: t3, w3, none, cs3⟩ :: rest) st = .error .noParamsContainer
    ∧ runPipeline (⟨nm :: hs, w, some ps, some (raw :: rs)⟩ :: rest) st = runPipeline rest st
    ∧ runPipeline (⟨nm :: hs, w, some ps, some (rawEmpty :: rs4)⟩ :: rest) st
        = runPipeline rest st := by
  refine ⟨rfl, rfl, ?_, ?_⟩
  · exact runPipeline_skip _ rest st
      (processSection_skip_of_parse_fail nm hs w ps raw rs params hparams hne hfail)
  · have hsec : processSection ⟨nm :: hs, w, some ps, some (rawEmpty :: rs4)⟩ = .ok .skip := by
      unfold processSection
      simp only [hparams]
      rw [if_pos hempty]
    exact runPipeline_skip _ rest st hsec

/-- C1 witness: the amended theorem applied at concrete subtrees. -/
theorem C1_witness :
    processParams [] = .ok []
    ∧ (sanitize "y\x7bnope" == "") = false
    ∧ jsonParse (applySimulateFix (recoverCandidate (sanitize "y\x7bnope"))) = none
    ∧ (sanitize "" == "") = true
    ∧ (runPipeline [⟨[], none, some [], some ["x"]⟩] ⟨[], []⟩ = .error .noHeading
      ∧ runPipeline [⟨["getFoo"], none, none, some ["x"]⟩] ⟨[], []⟩ = .error .noParamsContainer
      ∧ runPipeline [⟨["getBaz"], none, some [], some ["y\x7bnope"]⟩] ⟨[], []⟩
          = runPipeline [] ⟨[], []⟩
      ∧ runPipeline [⟨["getBaz"], none, some [], some [""]⟩] ⟨[], []⟩
          = runPipeline [] ⟨[], []⟩) :=
  ⟨rfl, by decide, rfl, by decide,
    C1_amended_precondition_failures none (some []) (some ["x"]) "getFoo" [] none (some ["x"])
      "getBaz" [] none [] "y\x7bnope" "" [] [] [] [] ⟨[], []⟩ rfl (by decide) rfl (by decide)⟩

/-- C7 counterexample: a parameter node without a flag indicator element is
not extracted with required set to false: the lookup raises a TypeError, and
at run level the error aborts the pipeline. -/
theorem C7_counterexample :
    processParam ⟨some "string", [], []⟩ = .error .noFlagItem
    ∧ runPipeline [⟨["getFoo"], none, some [⟨some "string", [], []⟩], some ["x"]⟩] ⟨[], []⟩
        = .error .noFlagItem :=
  ⟨rfl, rfl⟩

/-- C7 as amended: a parameter is extracted with required equal to whether the
first flag element text equals the literal "required"; at parameter level the
flag element must exist, since its absence raises a TypeError instead of
yielding required = false; at field level an absent flag does yield
required = false without error. -/
theorem C7_amended_required_flag
    (rawType : String) (fsecs : List FieldSection) (f : String) (fs : List String)
    (mp : MethodParam) (q : ParamSection) (nameText typeText : String)
    (hok : processParam ⟨some rawType, fsecs, f :: fs⟩ = .ok (some mp))
    (hq : q.flagTexts = [])
    (hname : (sanitize nameText == "") = false)
    (htype : (typeText == "") = false) :
    mp.required = (f == "required")
    ∧ (∃ e, processParam q = .error e)
    ∧ fieldLoop [⟨some nameText, some typeText, []⟩] []
        = [⟨sanitize nameText, typeText, false⟩] := by
  refine ⟨?_, ?_, ?_⟩
  · have hok2 : (if (sanitize (jsTrim rawType) == "") = true then Except.ok none
        else Except.ok (some (⟨sanitize (jsTrim rawType), f == "required",
          if (sanitize (jsTrim rawType) == "object") = true then fieldLoop fsecs [] else []⟩
            : MethodParam))) = Except.ok (some mp) := hok
    split at hok2
    · simp at hok2
    · simp only [Except.ok.injEq, Option.some.injEq] at hok2
      subst hok2
      rfl
  · obtain ⟨qh, qfs, qfl⟩ := q
    simp only at hq
    subst hq
    cases qh with
    | none => exact ⟨.noParamHeader, rfl⟩
    | some rawType2 => exact ⟨.noFlagItem, rfl⟩
  · simp [fieldLoop, flagRequired, hname, htype]

/-- C7 witness: the amended theorem applied at concrete parameter and field
nodes. -/
theorem C7_witness :
    (⟨some "string", [], ["required"]⟩ : ParamSection).flagTexts = ["required"]
    ∧ processParam ⟨some "string", [], ["required"]⟩
        = .ok (some ⟨"string", true, []⟩)
    ∧ (⟨some "number", [], []⟩ : ParamSection).flagTexts = []
    ∧ (sanitize "commitment" == "") = false
    ∧ ("string" == "") = false
    ∧ ((⟨"string", true, []⟩ : MethodParam).required = ("required" == "required")
      ∧ (∃ e, processParam ⟨some "number", [], []⟩ = .error e)
      ∧ fieldLoop [⟨some "commitment", some "string", []⟩] []
          = [⟨sanitize "commitment", "string", false⟩]) :=
  ⟨rfl, rfl, rfl, by decide, by decide,
    C7_amended_required_flag "string" [] "required" [] ⟨"string", true, []⟩
      ⟨some "number", [], []⟩ "commitment" "string"
      rfl rfl (by decide) (by decide)⟩

/-- C8 counterexample: an object parameter whose first field section lacks its
name element: the well formed sibling field is not extracted, although alone
it would be; the claim that every sibling is still extracted fails. -/
theorem C8_counterexample :
    fieldLoop [⟨none, some "string", []⟩, ⟨some "ok", some "number", []⟩] [] = []
    ∧ mkFieldSpec ⟨some "ok", some "number", []⟩ = some ⟨"ok", "number", false⟩
    ∧ fieldLoop [⟨some "ok", some "number", []⟩] [] = [⟨"ok", "number", false⟩] :=
  ⟨rfl, rfl, rfl⟩

/-- The field loop keeps the structurally sound prefix of the field sections:
fields with both sub elements present are extracted or skipped one by one on
their text content, and the first field with a missing sub element raises a
TypeError that the catch at parameter level turns into stopping the loop. -/
theorem fieldLoop_eq_takeWhile :
    ∀ (l : List FieldSection) (acc : List FieldSpec),
      fieldLoop l acc = acc ++ (l.takeWhile fieldStructOk).filterMap mkFieldSpec := by
  intro l
  induction l with
  | nil => intro acc; simp [fieldLoop]
  | cons fsec rest ih =>
    intro acc
    obtain ⟨pn, ct, fl⟩ := fsec
    cases pn with
    | none =>
      have h1 : fieldLoop (⟨none, ct, fl⟩ :: rest) acc = acc := rfl
      have h2 : fieldStructOk ⟨none, ct, fl⟩ = false := rfl
      rw [h1, List.takeWhile_cons, h2]
      simp
    | some nameText =>
      cases ct with
      | none =>
        have h1 : fieldLoop (⟨some nameText, none, fl⟩ :: rest) acc = acc := rfl
        have h2 : fieldStructOk ⟨some nameText, none, fl⟩ = false := rfl
        rw [h1, List.takeWhile_cons, h2]
        simp
      | some typeText =>
        have hso : fieldStructOk ⟨some nameText, some typeText, fl⟩ = true := rfl
        have hlhs : fieldLoop (⟨some nameText, some typeText, fl⟩ :: rest) acc
            = if (sanitize nameText == "" || typeText == "") = true
              then fieldLoop rest acc
              else fieldLoop rest
                (acc ++ [⟨sanitize nameText, typeText, flagRequired fl⟩]) := rfl
        rw [hlhs, List.takeWhile_cons, hso]
        by_cases hcond : (sanitize nameText == "" || typeText == "") = true
        · have hmk : mkFieldSpec ⟨some nameText, some typeText, fl⟩ = none := by
            have h0 : mkFieldSpec ⟨some nameText, some typeText, fl⟩
                = if (sanitize nameText == "" || typeText == "") = true
                  then none
                  else some ⟨sanitize nameText, typeText, flagRequired fl⟩ := rfl
            rw [h0, if_pos hcond]
          rw [if_pos hcond, ih]
          simp [List.filterMap_cons, hmk]
        · have hmk : mkFieldSpec ⟨some nameText, some typeText, fl⟩
              = some ⟨sanitize nameText, typeText, flagRequired fl⟩ := by
            have h0 : mkFieldSpec ⟨some nameText, some typeText, fl⟩
                = if (sanitize nameText == "" || typeText == "") = true
                  then none
                  else some ⟨sanitize nameText, typeText, flagRequired fl⟩ := rfl
            rw [h0, if_neg hcond]
          rw [if_neg hcond, ih]
          simp [List.filterMap_cons, hmk, List.append_assoc]


/-- C8 as amended: within an object typed parameter, a field whose name or
type text is empty is skipped and its siblings are still extracted; but a
missing name or type sub element raises a TypeError that the catch at the
parameter level absorbs, ending field extraction for that parameter: the
fields collected before the broken one are kept, later siblings are dropped,
and the parent parameter is still emitted with the collected fields. -/
theorem C8_amended_field_failure_scope
    (l : List FieldSection) (rawType : String) (fsecs : List FieldSection)
    (f : String) (fs : List String)
    (hobj : sanitize (jsTrim rawType) = "object") :
    fieldLoop l [] = (l.takeWhile fieldStructOk).filterMap mkFieldSpec
    ∧ processParam ⟨some rawType, fsecs, f :: fs⟩
        = .ok (some ⟨"object", f == "required", fieldLoop fsecs []⟩) := by
  constructor
  · have h := fieldLoop_eq_takeWhile l []
    simpa using h
  · show (if (sanitize (jsTrim rawType) == "") = true then Except.ok none
        else Except.ok (some (⟨sanitize (jsTrim rawType), f == "required",
          if (sanitize (jsTrim rawType) == "object") = true then fieldLoop fsecs [] else []⟩
            : MethodParam)))
      = Except.ok (some ⟨"object", f == "required", fieldLoop fsecs []⟩)
    rw [hobj, if_neg (by decide), if_pos (by decide)]

/-- C8 witness: the amended theorem applied at a concrete object parameter
whose first field lacks its name element and whose second field is well
formed; the broken field ends the loop, so no field survives, and the parent
parameter is still emitted. -/
theorem C8_witness :
    sanitize (jsTrim "object") = "object"
    ∧ (fieldLoop [⟨none, some "string", []⟩, ⟨some "ok", some "number", []⟩] []
        = (([⟨none, some "string", []⟩, ⟨some "ok", some "number", []⟩]
            : List FieldSection).takeWhile fieldStructOk).filterMap mkFieldSpec
      ∧ processParam ⟨some "object",
            [⟨none, some "string", []⟩, ⟨some "ok", some "number", []⟩], ["required"]⟩
          = .ok (some ⟨"object", "required" == "required",
              fieldLoop [⟨none, some "string", []⟩, ⟨some "ok", some "number", []⟩] []⟩)) :=
  ⟨by decide,
    C8_amended_field_failure_scope
      [⟨none, some "string", []⟩, ⟨some "ok", some "number", []⟩] "object"
      [⟨none, some "string", []⟩, ⟨some "ok", some "number", []⟩] "required" []
      (by decide)⟩

/-! ## Aggregation invariant lemmas for C2 -/

theorem addToBucket_keys_mem (m : List (MethodCategory × List MethodRecord))
    (c : MethodCategory) (r : MethodRecord) (h : c ∈ m.map Prod.fst) :
    (addToBucket m c r).map Prod.fst = m.map Prod.fst := by
  induction m with
  | nil => simp at h
  | cons kv rest ih =>
    obtain ⟨c0, b0⟩ := kv
    by_cases hc : c0 = c
    · simp [addToBucket, hc]
    · have h2 : c ∈ rest.map Prod.fst := by
        rw [List.map_cons] at h
        rcases List.mem_cons.mp h with h1 | h2
        · exact absurd h1.symm hc
        · exact h2
      simp [addToBucket, hc, ih h2]

theorem addToBucket_keys_new (m : List (MethodCategory × List MethodRecord))
    (c : MethodCategory) (r : MethodRecord) (h : c ∉ m.map Prod.fst) :
    (addToBucket m c r).map Prod.fst = m.map Prod.fst ++ [c] := by
  induction m with
  | nil => simp [addToBucket]
  | cons kv rest ih =>
    obtain ⟨c0, b0⟩ := kv
    have hc : ¬(c0 = c) := by
      intro e
      exact h (by simp [e])
    have h2 : c ∉ rest.map Prod.fst := fun hm => h (by simp [hm])
    simp [addToBucket, hc, ih h2]

theorem bucketsMatch_addToBucket (ms : List MethodRecord) (r : MethodRecord) :
    ∀ (m : List (MethodCategory × List MethodRecord)),
      (∀ c b, (c, b) ∈ m → b = ms.filter (fun x => decide (x.category = c))) →
      (m.map Prod.fst).Nodup →
      (r.category ∉ m.map Prod.fst →
        ms.filter (fun x => decide (x.category = r.category)) = []) →
      ∀ c b, (c, b) ∈ addToBucket m r.category r →
        b = (ms ++ [r]).filter (fun x => decide (x.category = c)) := by
  intro m
  induction m with
  | nil =>
    intro _ _ hnil c b hmem
    simp only [addToBucket, List.mem_singleton, Prod.mk.injEq] at hmem
    obtain ⟨hc, hb⟩ := hmem
    subst hc
    subst hb
    rw [List.filter_append, hnil (by simp)]
    simp
  | cons kv rest ih =>
    intro hA hnodup hnil c b hmem
    obtain ⟨c0, b0⟩ := kv
    have hb0 : b0 = ms.filter (fun x => decide (x.category = c0)) := hA c0 b0 (by simp)
    have hnodupc : (c0 :: rest.map Prod.fst).Nodup := hnodup
    have hnodup2 := List.nodup_cons.mp hnodupc
    by_cases hc : c0 = r.category
    · simp only [addToBucket, if_pos hc] at hmem
      rcases List.mem_cons.mp hmem with h1 | h2
      · rw [Prod.mk.injEq] at h1
        obtain ⟨e1, e2⟩ := h1
        subst e1
        subst e2
        rw [List.filter_append, ← hb0]
        have hr : ([r].filter (fun x => decide (x.category = c))) = [r] := by
          simp [← hc]
        rw [hr]
      · have hbc : b = ms.filter (fun x => decide (x.category = c)) :=
          hA c b (List.mem_cons_of_mem _ h2)
        have hcfst : c ∈ rest.map Prod.fst := by
          exact List.mem_map_of_mem Prod.fst h2
        have hne : r.category ≠ c := by
          intro e
          have e2 : c0 = c := hc.trans e
          subst e2
          exact hnodup2.1 hcfst
        rw [List.filter_append]
        have hr : ([r].filter (fun x => decide (x.category = c))) = [] := by
          simp [hne]
        rw [hr, List.append_nil, hbc]
    · simp only [addToBucket, if_neg hc] at hmem
      rcases List.mem_cons.mp hmem with h1 | h2
      · rw [Prod.mk.injEq] at h1
        obtain ⟨e1, e2⟩ := h1
        subst e1
        subst e2
        rw [List.filter_append]
        have hr : ([r].filter (fun x => decide (x.category = c))) = [] := by
          simp
          intro e
          exact absurd e.symm hc
        rw [hr, List.append_nil, hb0]
      · refine ih ?_ hnodup2.2 ?_ c b h2
        · intro c2 b2 hm
          exact hA c2 b2 (List.mem_cons_of_mem _ hm)
        · intro hnm
          refine hnil ?_
          simp only [List.map_cons, List.mem_cons]
          rintro (h1 | h1)
          · exact hc h1.symm
          · exact hnm h1

theorem inv_pushRecord (st : AggState) (r : MethodRecord) (h : Inv st) :
    Inv (pushRecord st r) := by
  obtain ⟨hA, hnodup, hcover⟩ := h
  have hnil : r.category ∉ st.categoryMap.map Prod.fst →
      st.methods.filter (fun x => decide (x.category = r.category)) = [] := by
    intro hnm
    rw [List.filter_eq_nil_iff]
    intro a ha
    simp only [decide_eq_true_eq]
    intro e
    exact hnm (e ▸ hcover a ha)
  refine ⟨?_, ?_, ?_⟩
  · intro c b hmem
    exact bucketsMatch_addToBucket st.methods r st.categoryMap hA hnodup hnil c b hmem
  · by_cases hm : r.category ∈ st.categoryMap.map Prod.fst
    · show ((addToBucket st.categoryMap r.category r).map Prod.fst).Nodup
      rw [addToBucket_keys_mem _ _ _ hm]
      exact hnodup
    · show ((addToBucket st.categoryMap r.category r).map Prod.fst).Nodup
      rw [addToBucket_keys_new _ _ _ hm]
      rw [List.nodup_append]
      refine ⟨hnodup, List.nodup_singleton _, ?_⟩
      intro a ha hb
      simp at hb
      subst hb
      exact hm ha
  · intro x hx
    show x.category ∈ (addToBucket st.categoryMap r.category r).map Prod.fst
    have hx2 : x ∈ st.methods ++ [r] := hx
    by_cases hm : r.category ∈ st.categoryMap.map Prod.fst
    · rw [addToBucket_keys_mem _ _ _ hm]
      rcases List.mem_append.mp hx2 with h1 | h2
      · exact hcover x h1
      · simp at h2
        subst h2
        exact hm
    · rw [addToBucket_keys_new _ _ _ hm]
      rcases List.mem_append.mp hx2 with h1 | h2
      · exact List.mem_append_left _ (hcover x h1)
      · simp at h2
        subst h2
        exact List.mem_append_right _ (by simp)

theorem inv_init : Inv ⟨[], []⟩ := by
  refine ⟨?_, ?_, ?_⟩
  · intro c b h
    simp at h
  · simp
  · intro r h
    simp at h

theorem runPipeline_inv :
    ∀ (secs : List MethodSection) (st st' : AggState),
      runPipeline secs st = .ok st' → Inv st → Inv st' := by
  intro secs
  induction secs with
  | nil =>
    intro st st' h hi
    simp only [runPipeline, Except.ok.injEq] at h
    rw [← h]
    exact hi
  | cons sec rest ih =>
    intro st st' h hi
    rw [runPipeline] at h
    cases hps : processSection sec with
    | error e =>
      rw [hps] at h
      simp at h
    | ok outcome =>
      rw [hps] at h
      cases outcome with
      | skip => exact ih st st' h hi
      | record r => exact ih _ st' h (inv_pushRecord st r hi)

theorem lookupBucket_of_mem_keys :
    ∀ (m : List (MethodCategory × List MethodRecord)) (c : MethodCategory),
      c ∈ m.map Prod.fst → ∃ b, lookupBucket m c = some b ∧ (c, b) ∈ m := by
  intro m
  induction m with
  | nil =>
    intro c h
    simp at h
  | cons kv rest ih =>
    intro c h
    obtain ⟨c0, b0⟩ := kv
    by_cases hc : c0 = c
    · subst hc
      exact ⟨b0, by simp [lookupBucket], by simp⟩
    · have h2 : c ∈ rest.map Prod.fst := by
        rw [List.map_cons] at h
        rcases List.mem_cons.mp h with h1 | h2
        · exact absurd h1.symm hc
        · exact h2
      obtain ⟨b, hb1, hb2⟩ := ih c h2
      exact ⟨b, by simp [lookupBucket, hc, hb1], List.mem_cons_of_mem _ hb2⟩

theorem sum_map_add {α : Type} (f g : α → Nat) :
    ∀ l : List α, ((l.map (fun a => f a + g a)).sum) = (l.map f).sum + (l.map g).sum := by
  intro l
  induction l with
  | nil => rfl
  | cons a t ih =>
    simp only [List.map_cons, List.sum_cons, ih]
    omega

theorem sum_indicator_zero (a : MethodCategory) :
    ∀ ks : List MethodCategory, a ∉ ks →
      ((ks.map (fun c => if c = a then 1 else 0)).sum) = 0 := by
  intro ks
  induction ks with
  | nil => intro _; rfl
  | cons k t ih =>
    intro h
    have hk : ¬(k = a) := fun e => h (by simp [e])
    have ht : a ∉ t := fun hm => h (by simp [hm])
    simp [List.map_cons, List.sum_cons, hk, ih ht]

theorem sum_indicator_one (a : MethodCategory) :
    ∀ ks : List MethodCategory, ks.Nodup → a ∈ ks →
      ((ks.map (fun c => if c = a then 1 else 0)).sum) = 1 := by
  intro ks
  induction ks with
  | nil =>
    intro _ h
    simp at h
  | cons k t ih =>
    intro hnd hmem
    have hnd2 := List.nodup_cons.mp hnd
    by_cases hk : k = a
    · subst hk
      simp [List.map_cons, List.sum_cons, sum_indicator_zero k t hnd2.1]
    · have ht : a ∈ t := by
        rcases List.mem_cons.mp hmem with h1 | h2
        · exact absurd h1.symm hk
        · exact h2
      simp [List.map_cons, List.sum_cons, hk, ih hnd2.2 ht]

theorem sum_filter_lengths :
    ∀ (ms : List MethodRecord) (ks : List MethodCategory), ks.Nodup →
      (∀ x, x ∈ ms → x.category ∈ ks) →
      ((ks.map (fun c => (ms.filter (fun x => decide (x.category = c))).length)).sum)
        = ms.length := by
  intro ms
  induction ms with
  | nil =>
    intro ks _ _
    simp
  | cons x tl ih =>
    intro ks hnd hcov
    have hx : x.category ∈ ks := hcov x (by simp)
    have hcov2 : ∀ y, y ∈ tl → y.category ∈ ks := fun y hy => hcov y (by simp [hy])
    have hpt : ∀ c ∈ ks,
        ((x :: tl).filter (fun z => decide (z.category = c))).length
          = (if c = x.category then 1 else 0)
            + (tl.filter (fun z => decide (z.category = c))).length := by
      intro c _
      rw [List.filter_cons]
      by_cases he : x.category = c
      · rw [if_pos (by simp [he]), if_pos he.symm]
        simp [List.length_cons]
        omega
      · rw [if_neg (by simp [he]), if_neg (fun e => he e.symm)]
        simp
    rw [List.map_congr_left hpt, sum_map_add, sum_indicator_one x.category ks hnd hx,
      ih ks hnd hcov2]
    simp [List.length_cons]
    omega

/-- C2: after every completed run, the flat list and the category index hold
exactly the same records: bucket lengths sum to the flat list length, bucket
keys are pairwise distinct, every record of the flat list is found in the
bucket looked up by its own category field, and every bucket entry is a record
of the flat list whose category equals its bucket key. -/
theorem C2_aggregation_consistency (secs : List MethodSection) (st : AggState)
    (h : runPipeline secs ⟨[], []⟩ = .ok st) :
    bucketLenSum st.categoryMap = st.methods.length
    ∧ (st.categoryMap.map Prod.fst).Nodup
    ∧ (∀ r, r ∈ st.methods →
        ∃ b, lookupBucket st.categoryMap r.category = some b ∧ r ∈ b)
    ∧ (∀ c b, (c, b) ∈ st.categoryMap → ∀ r, r ∈ b → r ∈ st.methods ∧ r.category = c) := by
  have hinv : Inv st := runPipeline_inv secs ⟨[], []⟩ st h inv_init
  obtain ⟨hA, hnodup, hcover⟩ := hinv
  refine ⟨?_, hnodup, ?_, ?_⟩
  · unfold bucketLenSum
    have hmap : st.categoryMap.map (fun kv => kv.2.length)
        = st.categoryMap.map (fun kv =>
            (st.methods.filter (fun x => decide (x.category = kv.1))).length) := by
      apply List.map_congr_left
      intro kv hkv
      obtain ⟨c, b⟩ := kv
      simp only
      rw [hA c b hkv]
    rw [hmap]
    have hcomp : st.categoryMap.map (fun kv =>
          (st.methods.filter (fun x => decide (x.category = kv.1))).length)
        = (st.categoryMap.map Prod.fst).map
            (fun c => (st.methods.filter (fun x => decide (x.category = c))).length) := by
      rw [List.map_map]
      rfl
    rw [hcomp]
    exact sum_filter_lengths st.methods (st.categoryMap.map Prod.fst) hnodup hcover
  · intro r hr
    obtain ⟨b, hb1, hb2⟩ := lookupBucket_of_mem_keys st.categoryMap r.category (hcover r hr)
    refine ⟨b, hb1, ?_⟩
    rw [hA _ _ hb2, List.mem_filter]
    exact ⟨hr, by simp⟩
  · intro c b hmem r hrb
    rw [hA c b hmem, List.mem_filter] at hrb
    exact ⟨hrb.1, by simpa using hrb.2⟩

/-- C2 witness: a one section run producing one record; the run evaluates to
the expected state and the theorem is instantiated on it. -/
theorem C2_witness :
    runPipeline [c2DemoSection] ⟨[], []⟩ = .ok c2DemoState
    ∧ (bucketLenSum c2DemoState.categoryMap = c2DemoState.methods.length
      ∧ (c2DemoState.categoryMap.map Prod.fst).Nodup
      ∧ (∀ r, r ∈ c2DemoState.methods →
          ∃ b, lookupBucket c2DemoState.categoryMap r.category = some b ∧ r ∈ b)
      ∧ (∀ c b, (c, b) ∈ c2DemoState.categoryMap → ∀ r, r ∈ b →
          r ∈ c2DemoState.methods ∧ r.category = c)) :=
  ⟨rfl, C2_aggregation_consistency [c2DemoSection] c2DemoState rfl⟩

end Scrapey
